import Mathlib

/-!
Verification of the signal-analysis engine (vector.py, statistical.py,
signal_process.py, common_lib.py, app_gui.py) against its specification.

Embedding conventions:
* Samples are exact rationals (ℚ).  The Python code computes with floats; the
  spec and the claims speak of real-number arithmetic, which ℚ realises
  exactly for the operations used (sums, products, divisions).
* numpy.sqrt appears only inside comparisons (std_dev = sqrt(variance)).
  Since sqrt is strictly monotone on nonnegative reals, every comparison of
  the source is translated by squaring both sides:
    local_std > 0                 ⟺  0 < local_var
    diff > 4.0 * local_std        ⟺  diff^2 > 16 * local_var
    std < global_std * 0.002      ⟺  var < global_var * (1/250000)
    local_std < 0.01 * global_std ⟺  local_var < global_var * (1/10000)
    amp_std < 0.3 * amp_mean      ⟺  0 < amp_mean ∧ amp_var < (9/100) * amp_mean^2
  (the last uses amp_var ≥ 0; each equivalence is exact, see the
  sqrt-bridging lemmas sqrt_cmp_pos, sqrt_cmp_mul, sqrt_cmp_scaled and
  sqrt_cmp_amp below).
* Python runtime errors are modelled with Except PyErr: the NameError raised
  by the undefined name n in detect_stalls, and the ZeroDivisionError raised
  by moving_average when its window size is zero.
* padded_data indexes data[0] and data[-1]; on an empty list Python raises.
  The embedding uses headD/getLastD with default 0 and theorems carry a
  nonemptiness hypothesis where that matters (a vector always holds at least
  one sample: check_header is applied to a nonempty CSV column).
* Python int(x) on the nonnegative floats used for window sizing is floor;
  int(self.n * 0.05) is embedded as n / 20 in ℕ, int(self.n * 0.03) as
  n * 3 / 100, int(self.n / 10) as n / 10, int(n * window_ratio) as
  ⌊n * ratio⌋.
* Python range(a) for a possibly negative a is empty; loop bounds
  range(n - w + 1) are embedded as List.range (n + 1 - w), which agrees with
  Python for every n, w (ℕ subtraction truncates at 0).
-/

namespace SignalCore

/-- Python runtime failures that the analysed code can actually raise on the
paths modelled here. -/
inductive PyErr where
  | nameError : PyErr
  | zeroDivision : PyErr
deriving DecidableEq

/-- common_lib.mean_value: mean = sum(data) / number_of_data. -/
def mean_value (data : List ℚ) (number_of_data : ℕ) : ℚ :=
  data.sum / number_of_data

/-- common_lib.variance: s = Σ (value - mean)^2, variance = s / number_of_data
(population variance, mean taken with the same count argument). -/
def variance (data : List ℚ) (number_of_data : ℕ) : ℚ :=
  (data.map (fun value => (value - mean_value data number_of_data) ^ 2)).sum
    / number_of_data

/-- common_lib.padded_data: window_size // 2 copies of data[0] in front and
window_size // 2 copies of data[-1] behind. -/
def padded_data (data : List ℚ) (window_size : ℕ) : List ℚ :=
  List.replicate (window_size / 2) (data.headD 0) ++ data ++
    List.replicate (window_size / 2) (data.getLastD 0)

/-! vector.detect_spikes -/

/-- window_size = max(int(self.n * 0.05), min_stall_length) with
min_stall_length = 10 (the source reuses that constant name). -/
def spike_window_size (n : ℕ) : ℕ := max (n / 20) 10

/-- The loop-body condition of vector.detect_spikes for index i: build the
centered window from the padded data, drop its center element
(window[:c] + window[c+1:], c = window_size // 2), compute the leave-one-out
mean and variance, and test
  local_std > 0 and |current[i] - local_mean| > 4.0 * local_std,
translated by squaring (see the file header). -/
def spike_cond (current : List ℚ) (i : ℕ) : Bool :=
  let n := current.length
  let ws := spike_window_size n
  let padded := padded_data current ws
  let window := (padded.drop i).take ws
  let c := ws / 2
  let window_wo_center := window.take c ++ window.drop (c + 1)
  let m := window_wo_center.length
  let local_mean := mean_value window_wo_center m
  let local_var := variance window_wo_center m
  decide (0 < local_var) &&
    decide (16 * local_var < (current.getD i 0 - local_mean) ^ 2)

/-- vector.detect_spikes: for i in range(self.n), append [i, current[i]] when
the spike condition holds. -/
def detect_spikes (current : List ℚ) : List (ℕ × ℚ) :=
  (List.range current.length).foldl
    (fun spikes i =>
      if spike_cond current i then spikes ++ [(i, current.getD i 0)]
      else spikes) []

/-- The test family of claim C1: n samples equal to 5.0 except a single
sample 20.0 at position o. -/
def mkOutlier (n o : ℕ) : List ℚ := (List.replicate n 5).set o 20

/-! vector.detect_oscillations -/

/-- window_size = max(int(self.n * window_ratio), min_osci_length) with
min_osci_length = 10; int truncates the nonnegative product, i.e. floor. -/
def osc_window_size (n : ℕ) (ratio : ℚ) : ℕ :=
  max (⌊(n : ℚ) * ratio⌋).toNat 10

/-- scipy.signal.detrend (linear): subtract the least-squares line fitted
over the indices 0 .. m-1 (documented behaviour of the library dependency;
over ℚ the normal equations are solved exactly). -/
def detrend (l : List ℚ) : List ℚ :=
  let m : ℚ := l.length
  let tbar := (m - 1) / 2
  let xbar := l.sum / m
  let pts := (List.range l.length).map (fun (j : ℕ) => ((j : ℚ), l.getD j 0))
  let stt := (pts.map (fun p => (p.1 - tbar) ^ 2)).sum
  let sty := (pts.map (fun p => (p.1 - tbar) * (p.2 - xbar))).sum
  let b := sty / stt
  let a := xbar - b * tbar
  pts.map (fun p => p.2 - (a + b * p.1))

/-- numpy.sign on a single value. -/
def np_sign (q : ℚ) : ℚ := if 0 < q then 1 else if q < 0 then -1 else 0

/-- np.where(np.diff(signs) != 0)[0]: positions where consecutive signs
differ. -/
def zero_crossings (signs : List ℚ) : List ℕ :=
  (List.range (signs.length - 1)).filter
    (fun j => signs.getD (j + 1) 0 ≠ signs.getD j 0)

/-- Python max(slice, key=abs): the first element of largest absolute value
(max replaces the current best only on a strictly larger key). -/
def max_by_abs (l : List ℚ) : ℚ :=
  l.foldl (fun acc v => if |acc| < |v| then v else acc) (l.headD 0)

/-- The detrended window of detect_oscillations at start offset i:
detrend(padded_data[i : i + window_size]). -/
def osc_centered (current : List ℚ) (ratio : ℚ) (i : ℕ) : List ℚ :=
  let ws := osc_window_size current.length ratio
  detrend (((padded_data current ws).drop i).take ws)

/-- The energy gate of detect_oscillations: the window is skipped when
local_std < 0.01 * global_std (global statistics over the un-padded
current); squared translation local_var < global_var * (1/10000). -/
def osc_energetic (current : List ℚ) (ratio : ℚ) (i : ℕ) : Bool :=
  let ws := osc_window_size current.length ratio
  let window := ((padded_data current ws).drop i).take ws
  let centered := detrend window
  let local_var := variance centered window.length
  let global_var := variance current current.length
  !decide (local_var < global_var * (1 / 10000))

/-- The zero-crossing index list of the detrended window at offset i. -/
def osc_zc (current : List ℚ) (ratio : ℚ) (i : ℕ) : List ℕ :=
  zero_crossings ((osc_centered current ratio i).map np_sign)

/-- The consecutive-crossing sub-intervals of the window at offset i, as
(idx1, idx2) pairs. -/
def osc_pairs (current : List ℚ) (ratio : ℚ) (i : ℕ) : List (ℕ × ℕ) :=
  let zc := osc_zc current ratio i
  (List.range (zc.length - 1)).map (fun j => (zc.getD j 0, zc.getD (j + 1) 0))

/-- The count of the inner loop of detect_oscillations: sub-intervals whose
gap idx2 - idx1 is at least 5 and for which amp_std < 0.3 * amp_mean, where
amp_mean and amp_std are computed once over the peak absolute amplitudes
abs(max(centered[idx1:idx2], key=abs)) of all sub-intervals of the window.
Squared translation: 0 < amp_mean ∧ amp_var < (9/100) * amp_mean^2. -/
def osc_count (current : List ℚ) (ratio : ℚ) (i : ℕ) : ℕ :=
  let centered := osc_centered current ratio i
  let pairs := osc_pairs current ratio i
  let amp := pairs.map (fun p => |max_by_abs ((centered.drop p.1).take (p.2 - p.1))|)
  let lengths := pairs.map (fun p => p.2 - p.1)
  let amp_var := variance amp amp.length
  let amp_mean := mean_value amp amp.length
  lengths.countP (fun L =>
    decide (5 ≤ L) && (decide (0 < amp_mean) &&
      decide (amp_var < (9 / 100) * amp_mean ^ 2)))

/-- The full per-window acceptance condition of detect_oscillations: the
energy gate passes, more than min_cycles = 5 zero crossings exist, and more
than 3 sub-intervals pass the gap/amplitude test. -/
def osc_window_qualifies (current : List ℚ) (ratio : ℚ) (i : ℕ) : Bool :=
  osc_energetic current ratio i &&
    (decide (5 < (osc_zc current ratio i).length) &&
      decide (3 < osc_count current ratio i))

/-- vector.detect_oscillations: for i in range(self.n - window_size + 1),
append [start, end] = [i, i + window_size] when the window qualifies. -/
def detect_oscillations (current : List ℚ) (ratio : ℚ) : List (ℕ × ℕ) :=
  let n := current.length
  let ws := osc_window_size n ratio
  (List.range (n + 1 - ws)).foldl
    (fun regions i =>
      if osc_window_qualifies current ratio i then regions ++ [(i, i + ws)]
      else regions) []

/-! vector.detect_stalls -/

/-- window_size = max(int(self.n * 0.03), min_stall_length). -/
def stall_window_size (n : ℕ) : ℕ := max (n * 3 / 100) 10

/-- The per-offset in-stall flags of vector.detect_stalls: moving_std collects
std(current[i:i+window_size]) for the offsets 0 .. n - window_size, and
stall_flags = moving_std < threshold compares them elementwise with
threshold = global_std * 0.002 (numpy broadcasts the scalar comparison).
Squared translation: var < global_var * (1/250000). -/
def stall_flags (current : List ℚ) : List Bool :=
  let n := current.length
  let ws := stall_window_size n
  let gv := variance current n
  let moving_var := (List.range (n + 1 - ws)).map (fun i =>
    let s := (current.drop i).take ws
    variance s s.length)
  moving_var.map (fun v => decide (v < gv * (1 / 250000)))

/-- One step of the run-scanning loop of vector.detect_stalls over the
enumerated flags; state is (in_stall, start, stalls).  Closing a run at
offset i records end = i + window_size - 1 and appends
(start, min(end, n-1)) when end - start >= min_stall_length (10). -/
def stall_step (n ws : ℕ) (st : Bool × ℕ × List (ℕ × ℕ)) (p : ℕ × Bool) :
    Bool × ℕ × List (ℕ × ℕ) :=
  if p.2 && !st.1 then (true, p.1, st.2.2)
  else if !p.2 && st.1 then
    (false, st.2.1,
      if 10 ≤ p.1 + ws - 1 - st.2.1 then
        st.2.2 ++ [(st.2.1, min (p.1 + ws - 1) (n - 1))]
      else st.2.2)
  else st

/-- The trailing `if in_stall:` block of vector.detect_stalls: a run still
open at the end of the scan is closed with end = n - 1 and kept when
end - start >= 10. -/
def stall_post (n : ℕ) (st : Bool × ℕ × List (ℕ × ℕ)) : List (ℕ × ℕ) :=
  if st.1 then
    (if 10 ≤ n - 1 - st.2.1 then st.2.2 ++ [(st.2.1, n - 1)] else st.2.2)
  else st.2.2

/-- The whole run-scanning pass of vector.detect_stalls on the flag list. -/
def stall_fold (n ws : ℕ) (flags : List Bool) : List (ℕ × ℕ) :=
  stall_post n (flags.enum.foldl (stall_step n ws) (false, 0, []))

/-- vector.detect_stalls.  In the branch global_std == 0 the source executes
`stalls = [(0, n-1)]` where the bare name n is unbound (the attribute is
self.n), so Python raises NameError there; this is modelled as an error
value.  Otherwise the run-scanning loop over the stall flags runs. -/
def detect_stalls (current : List ℚ) : Except PyErr (List (ℕ × ℕ)) :=
  let n := current.length
  let ws := stall_window_size n
  let gv := variance current n
  if gv = 0 then .error .nameError
  else .ok (stall_fold n ws (stall_flags current))

/-- Maximal runs of true flags, as (start, stop-exclusive) pairs in scan
order; the accumulator carries the absolute index and the start of the open
run, if any. -/
def runs_aux : List Bool → ℕ → Option ℕ → List (ℕ × ℕ)
  | [], _, none => []
  | [], i, some s => [(s, i)]
  | b :: bs, i, none =>
      if b then runs_aux bs (i + 1) (some i) else runs_aux bs (i + 1) none
  | b :: bs, i, some s =>
      if b then runs_aux bs (i + 1) (some s)
      else (s, i) :: runs_aux bs (i + 1) none

/-- Maximal runs of true flags of a Bool list. -/
def true_runs (flags : List Bool) : List (ℕ × ℕ) := runs_aux flags 0 none

/-- Declarative description of what vector.detect_stalls reports in the
global_std > 0 branch, in terms of the maximal in-stall runs: a run [s, e)
closed mid-scan (e < number of offsets) is always reported as
(s, min(e + window_size - 1, n - 1)); a run still open at the end of the
scan is reported as (s, n - 1) exactly when n - 1 - s >= 10. -/
def stalls_spec (n ws : ℕ) (flags : List Bool) : List (ℕ × ℕ) :=
  (true_runs flags).filterMap (fun r =>
    if r.2 < flags.length then some (r.1, min (r.2 + ws - 1) (n - 1))
    else if 10 ≤ n - 1 - r.1 then some (r.1, n - 1) else none)

/-- Modelled from the spec: the reading of claim C4, under which only
maximal in-stall runs of length >= 10 are reported, as
(run_start, run_start + window_size - 1) clipped to n - 1. -/
def claim_stalls_spec (n ws : ℕ) (flags : List Bool) : List (ℕ × ℕ) :=
  (true_runs flags).filterMap (fun r =>
    if 10 ≤ r.2 - r.1 then some (r.1, min (r.1 + ws - 1) (n - 1)) else none)

/-- A concrete series for claim C4: ten equal samples followed by ten
alternating samples.  Exactly the first window offset is in-stall, a maximal
run of length 1. -/
def stallProbe : List ℚ :=
  [0, 0, 0, 0, 0, 0, 0, 0, 0, 0, 100, 0, 100, 0, 100, 0, 100, 0, 100, 0]

/-! vector.filtered_data and vector.restore_spikes -/

/-- vector.filtered_data: window_size = 1 + 2*count, median filter over the
edge-padded signal; sorted(window)[window_size // 2] for each index. -/
def filtered_data (current : List ℚ) (count : ℕ) : List ℚ :=
  let window_size := 1 + 2 * count
  let padded := padded_data current window_size
  (List.range current.length).foldl
    (fun filtered i =>
      filtered ++
        [(((padded.drop i).take window_size).mergeSort (· ≤ ·)).getD
          (window_size / 2) 0]) []

/-- vector.restore_spikes: for each recorded spike, vec[spike[0]] = spike[1]
in place; the final vec is returned. -/
def restore_spikes (spikes : List (ℕ × ℚ)) (vec : List ℚ) : List ℚ :=
  spikes.foldl (fun v s => v.set s.1 s.2) vec

/-! statistical.moving_average -/

/-- statistical.moving_average: window_size = int(n / 10); for w = 0 the
first loop iteration evaluates sum([]) / 0 and Python raises
ZeroDivisionError; otherwise one average per start offset 0 .. n - w. -/
def moving_average (current : List ℚ) : Except PyErr (List ℚ) :=
  let n := current.length
  let window_size := n / 10
  if window_size = 0 then .error .zeroDivision
  else .ok ((List.range (n + 1 - window_size)).map (fun i =>
    ((current.drop i).take window_size).sum / window_size))

/-! signal_process.frequencies and signal_process.integral -/

/-- scipy.fft.rfftfreq(n, d): the list [0, 1, ..., n // 2] / (d * n)
(documented behaviour of the library dependency). -/
def rfftfreq (n : ℕ) (d : ℚ) : List ℚ :=
  (List.range (n / 2 + 1)).map (fun k => (k : ℚ) / (d * n))

/-- signal_process.frequencies: the source calls
rfftfreq(self.vector.n, d = 1.0 / self.time_step), i.e. it passes the
reciprocal of the stored time step as the sample spacing. -/
def frequencies (count : ℕ) (time_step : ℚ) : List ℚ :=
  rfftfreq count (1 / time_step)

/-- Modelled from the spec: the frequency bins claim C3 asserts, bin k equal
to k / (count * dt) for a real-input FFT with sample spacing dt. -/
def claimed_frequencies (count : ℕ) (dt : ℚ) : List ℚ :=
  (List.range (count / 2 + 1)).map (fun k => (k : ℚ) / (count * dt))

/-- Helper of the cumulative trapezoid: prev is the previous sample, acc the
integral so far; emits acc before each remaining trapezoid. -/
def trap_aux (dt : ℚ) : ℚ → ℚ → List ℚ → List ℚ
  | _, acc, [] => [acc]
  | prev, acc, y :: ys => acc :: trap_aux dt y (acc + dt * (prev + y) / 2) ys

/-- signal_process.integral: scipy.integrate.cumulative_trapezoid with
dx = time_step and initial = 0 — first value 0, then running trapezoid sums;
output as long as the input. -/
def integral (dt : ℚ) (current : List ℚ) : List ℚ :=
  match current with
  | [] => []
  | x :: xs => trap_aux dt x 0 xs

/-! The Series data model (vector.__init__, check_header) and the
whole-sequence replacements of current performed by the GUI layer. -/

/-- A raw CSV cell handed to vector(): either a header token or a numeric
sample (data.py converts every row after the first to float). -/
inductive Entry where
  | str : String → Entry
  | num : ℚ → Entry

/-- Numeric value of an entry; data.py guarantees that every entry after a
header is numeric, so the 0 default for a stray header token is never
exercised by well-formed input. -/
def entry_val : Entry → ℚ
  | .str _ => 0
  | .num q => q

/-- vector.check_header: if the first element is a string it is split off as
the header, otherwise the data is taken whole and the header is None. -/
def check_header (vec : List Entry) : List Entry × Option String :=
  match vec with
  | .str h :: rest => (rest, some h)
  | _ => (vec, none)

/-- The vector class state: original_data and current both initialised from
check_header(vec)[0], header from check_header(vec)[1], and
n = number_values() = len(current). -/
structure vec_state where
  original_data : List ℚ
  current : List ℚ
  header : Option String
  n : ℕ

/-- vector.__init__. -/
def mk_vec (vec : List Entry) : vec_state :=
  let ch := check_header vec
  let data := ch.1.map entry_val
  { original_data := data, current := data, header := ch.2,
    n := data.length }

/-- The whole-sequence replacements of current that the GUI commits:
SignalAnalyzer.filtered_data assigns current = vector.filtered_data(count),
SignalAnalyzer.integration assigns current = signal_process.integral(). -/
inductive GuiOp where
  | filter : ℕ → GuiOp
  | integrate : ℚ → GuiOp

/-- Effect of one committed GUI transform on the vector state (only current
is reassigned; original_data, header and n are untouched). -/
def apply_op (v : vec_state) (op : GuiOp) : vec_state :=
  match op with
  | .filter c => { v with current := filtered_data v.current c }
  | .integrate dt => { v with current := integral dt v.current }

/-- SignalAnalyzer.restore_data: current = original_data. -/
def restore_data (v : vec_state) : vec_state :=
  { v with current := v.original_data }

/-! Bridging lemmas justifying the squared translation of every comparison
that involves std_dev = sqrt(variance) in the source (see the file header):
sqrt is strictly monotone on nonnegative reals, so each comparison of the
Python code is equivalent to the square-free comparison used in the
definitions above. -/

theorem sqrt_cmp_pos (v : ℝ) : 0 < Real.sqrt v ↔ 0 < v := Real.sqrt_pos

theorem sqrt_cmp_mul (v d : ℝ) (hv : 0 ≤ v) (hd : 0 ≤ d) :
    4 * Real.sqrt v < d ↔ 16 * v < d ^ 2 := by
  constructor
  · intro h
    have h0 : 0 ≤ 4 * Real.sqrt v := by positivity
    have h2 := pow_lt_pow_left₀ h h0 (by norm_num : (2 : ℕ) ≠ 0)
    have h3 : (4 * Real.sqrt v) ^ 2 = 16 * v := by
      rw [mul_pow, Real.sq_sqrt hv]
      norm_num
    linarith [h3 ▸ h2]
  · intro h
    by_contra hc
    push_neg at hc
    have h2 := pow_le_pow_left₀ hd hc 2
    have h3 : (4 * Real.sqrt v) ^ 2 = 16 * v := by
      rw [mul_pow, Real.sq_sqrt hv]
      norm_num
    rw [h3] at h2
    linarith

theorem sqrt_cmp_scaled (v w c : ℝ) (hv : 0 ≤ v) (hw : 0 ≤ w) (hc : 0 < c) :
    Real.sqrt v < c * Real.sqrt w ↔ v < c ^ 2 * w := by
  constructor
  · intro h
    have h0 : 0 ≤ Real.sqrt v := Real.sqrt_nonneg v
    have h2 := pow_lt_pow_left₀ h h0 (by norm_num : (2 : ℕ) ≠ 0)
    have h3 : (c * Real.sqrt w) ^ 2 = c ^ 2 * w := by
      rw [mul_pow, Real.sq_sqrt hw]
    rw [Real.sq_sqrt hv, h3] at h2
    exact h2
  · intro h
    by_contra hcon
    push_neg at hcon
    have h0 : 0 ≤ c * Real.sqrt w := by positivity
    have h2 := pow_le_pow_left₀ h0 hcon 2
    rw [Real.sq_sqrt hv, mul_pow, Real.sq_sqrt hw] at h2
    linarith

theorem sqrt_cmp_amp (v u : ℝ) (hv : 0 ≤ v) :
    Real.sqrt v < (3 / 10) * u ↔ (0 < u ∧ v < (9 / 100) * u ^ 2) := by
  constructor
  · intro h
    have h0 : 0 ≤ Real.sqrt v := Real.sqrt_nonneg v
    have hu : 0 < u := by nlinarith
    refine ⟨hu, ?_⟩
    have h2 := pow_lt_pow_left₀ h h0 (by norm_num : (2 : ℕ) ≠ 0)
    rw [Real.sq_sqrt hv, mul_pow] at h2
    nlinarith
  · rintro ⟨hu, h⟩
    by_contra hcon
    push_neg at hcon
    have h0 : 0 ≤ (3 / 10) * u := by positivity
    have h2 := pow_le_pow_left₀ h0 hcon 2
    rw [Real.sq_sqrt hv, mul_pow] at h2
    nlinarith

/-! General helper lemmas -/

/-- A foldl that conditionally appends a singleton is a filterMap. -/
theorem foldl_append_if {α β : Type} (p : α → Bool) (f : α → β) :
    ∀ (l : List α) (acc : List β),
      l.foldl (fun acc i => if p i then acc ++ [f i] else acc) acc
        = acc ++ l.filterMap (fun i => if p i then some (f i) else none) := by
  intro l
  induction l with
  | nil => intro acc; simp
  | cons a t ih =>
    intro acc
    by_cases h : p a <;> simp [h, ih]

/-- A foldl that always appends a singleton is a map. -/
theorem foldl_append_map {α β : Type} (f : α → β) :
    ∀ (l : List α) (acc : List β),
      l.foldl (fun acc i => acc ++ [f i]) acc = acc ++ l.map f := by
  intro l
  induction l with
  | nil => intro acc; simp
  | cons a t ih => intro acc; simp [ih]

/-! Claim C7 and claim C10: the Series state machine. -/

theorem foldl_apply_op_original (ops : List GuiOp) :
    ∀ v : vec_state, (ops.foldl apply_op v).original_data = v.original_data := by
  induction ops with
  | nil => intro v; rfl
  | cons op t ih =>
    intro v
    rw [List.foldl_cons, ih]
    cases op <;> rfl

theorem foldl_apply_op_n (ops : List GuiOp) :
    ∀ v : vec_state, (ops.foldl apply_op v).n = v.n := by
  induction ops with
  | nil => intro v; rfl
  | cons op t ih =>
    intro v
    rw [List.foldl_cons, ih]
    cases op <;> rfl

theorem length_filtered_data (l : List ℚ) (c : ℕ) :
    (filtered_data l c).length = l.length := by
  unfold filtered_data
  rw [foldl_append_map]
  simp

theorem length_trap_aux (dt : ℚ) :
    ∀ (ys : List ℚ) (prev acc : ℚ),
      (trap_aux dt prev acc ys).length = ys.length + 1 := by
  intro ys
  induction ys with
  | nil => intro prev acc; rfl
  | cons y t ih => intro prev acc; simp [trap_aux, ih]

theorem length_integral (dt : ℚ) (l : List ℚ) :
    (integral dt l).length = l.length := by
  cases l with
  | nil => rfl
  | cons x xs => simp [integral, length_trap_aux]

theorem foldl_apply_op_inv (ops : List GuiOp) :
    ∀ v : vec_state, v.n = v.current.length →
      (ops.foldl apply_op v).n = (ops.foldl apply_op v).current.length := by
  induction ops with
  | nil => intro v h; exact h
  | cons op t ih =>
    intro v h
    rw [List.foldl_cons]
    apply ih
    cases op with
    | filter c => simpa [apply_op, length_filtered_data] using h
    | integrate dt => simpa [apply_op, length_integral] using h

/-- Claim C7: for every input column and every sequence of median-filter and
integration commits (each replacing current wholesale), restore-original
afterwards makes current element-wise equal to the original sample sequence
fixed at construction. -/
theorem C7_restore_round_trip (vec : List Entry) (ops : List GuiOp) :
    (restore_data (ops.foldl apply_op (mk_vec vec))).current
      = (mk_vec vec).original_data := by
  simp [restore_data, foldl_apply_op_original]

/-- Claim C10: count = len(current) holds after construction and is preserved
by every whole-sequence replacement of current; in particular filtered_data
and integral return sequences of length exactly count, so committing them, or
restoring the original, keeps the invariant. -/
theorem C10_count_invariant :
    (∀ (l : List ℚ) (c : ℕ), (filtered_data l c).length = l.length) ∧
    (∀ (dt : ℚ) (l : List ℚ), (integral dt l).length = l.length) ∧
    (∀ (vec : List Entry) (ops : List GuiOp),
      (ops.foldl apply_op (mk_vec vec)).n
        = (ops.foldl apply_op (mk_vec vec)).current.length) ∧
    (∀ (vec : List Entry) (ops : List GuiOp),
      (restore_data (ops.foldl apply_op (mk_vec vec))).n
        = (restore_data (ops.foldl apply_op (mk_vec vec))).current.length) := by
  refine ⟨length_filtered_data, length_integral, ?_, ?_⟩
  · intro vec ops
    exact foldl_apply_op_inv ops (mk_vec vec) rfl
  · intro vec ops
    have h1 := foldl_apply_op_n ops (mk_vec vec)
    have h2 := foldl_apply_op_original ops (mk_vec vec)
    calc (restore_data (ops.foldl apply_op (mk_vec vec))).n
        = (ops.foldl apply_op (mk_vec vec)).n := rfl
      _ = (mk_vec vec).n := h1
      _ = (mk_vec vec).original_data.length := by simp [mk_vec]
      _ = (restore_data (ops.foldl apply_op (mk_vec vec))).current.length := by
            simp [restore_data, h2]

/-! Claim C3: the frequency bins. -/

/-- Claim C3: the claim asserts bin k = k / (count * dt); the code passes
d = 1 / time_step to rfftfreq and therefore computes bin k = k * dt / count.
At count = 4, dt = 2 the code yields [0, 1/2, 1] while the claimed bins are
[0, 1/8, 1/4]. -/
theorem C3_frequencies_reciprocal_bug :
    frequencies 4 2 = [0, 1/2, 1] ∧
    claimed_frequencies 4 2 = [0, 1/8, 1/4] ∧
    frequencies 4 2 ≠ claimed_frequencies 4 2 := by
  have hr : List.range (4 / 2 + 1) = [0, 1, 2] := rfl
  have h1 : frequencies 4 2 = [0, 1/2, 1] := by
    unfold frequencies rfftfreq
    rw [hr]
    norm_num
  have h2 : claimed_frequencies 4 2 = [0, 1/8, 1/4] := by
    unfold claimed_frequencies
    rw [hr]
    norm_num
  refine ⟨h1, h2, ?_⟩
  rw [h1, h2]
  intro h
  have := List.cons.inj h
  norm_num at this

/-! Claim C2: detect_stalls on a perfectly constant series. -/

theorem variance_replicate_zero (n : ℕ) (c : ℚ) :
    variance (List.replicate n c) n = 0 := by
  rcases Nat.eq_zero_or_pos n with h | h
  · subst h; simp [variance, mean_value]
  · have hmean : mean_value (List.replicate n c) n = c := by
      unfold mean_value
      rw [List.sum_replicate, nsmul_eq_mul]
      field_simp
    unfold variance
    rw [hmean]
    simp

/-- Claim C2 (code behaviour at the claimed input): on every constant series
global_std == 0 and detect_stalls takes the degenerate branch, but that
branch evaluates the unbound name n and raises NameError instead of
returning [(0, count-1)]. -/
theorem C2_constant_series_name_error (n : ℕ) (c : ℚ) (h : 1 ≤ n) :
    detect_stalls (List.replicate n c) = .error .nameError := by
  unfold detect_stalls
  rw [List.length_replicate]
  simp [variance_replicate_zero]

/-- Witness for claim C2 at a concrete constant series. -/
theorem C2_witness :
    1 ≤ 10 ∧ detect_stalls (List.replicate 10 (1 : ℚ)) = .error .nameError :=
  ⟨by norm_num, C2_constant_series_name_error 10 1 (by norm_num)⟩

/-! Claim C5: moving_average. -/

/-- Claim C5: moving_average fails explicitly (ZeroDivisionError) when
floor(n/10) = 0, i.e. n < 10; otherwise it returns exactly n - floor(n/10) + 1
averages, the entry at offset i being the mean of the window of length
floor(n/10) starting at i, for i from 0 to n - floor(n/10) inclusive. -/
theorem C5_moving_average_spec (l : List ℚ) (h : 1 ≤ l.length) :
    (l.length < 10 → moving_average l = .error .zeroDivision) ∧
    (10 ≤ l.length → ∃ r, moving_average l = .ok r ∧
      r.length = l.length - l.length / 10 + 1 ∧
      ∀ i, i ≤ l.length - l.length / 10 →
        r.getD i 0 = mean_value ((l.drop i).take (l.length / 10))
          (l.length / 10)) := by
  constructor
  · intro hlt
    have h0 : l.length / 10 = 0 := by omega
    unfold moving_average
    simp [h0]
  · intro hge
    have h0 : l.length / 10 ≠ 0 := by omega
    have hle : l.length / 10 ≤ l.length := Nat.div_le_self _ _
    refine ⟨(List.range (l.length + 1 - l.length / 10)).map (fun i =>
      ((l.drop i).take (l.length / 10)).sum / ((l.length / 10 : ℕ) : ℚ)),
      ?_, ?_, ?_⟩
    · unfold moving_average
      simp [h0]
    · simp
      omega
    · intro i hi
      have hilt : i < (List.range (l.length + 1 - l.length / 10)).length := by
        simp
        omega
      rw [List.getD_eq_getElem _ _ (by simpa using hilt)]
      rw [List.getElem_map, List.getElem_range]
      simp [mean_value]

/-- Witness for claim C5 on a concrete 12-sample series. -/
theorem C5_witness :
    1 ≤ ([1,2,3,4,5,6,7,8,9,10,11,12] : List ℚ).length ∧
    ((([1,2,3,4,5,6,7,8,9,10,11,12] : List ℚ).length < 10 →
        moving_average [1,2,3,4,5,6,7,8,9,10,11,12] = .error .zeroDivision) ∧
     (10 ≤ ([1,2,3,4,5,6,7,8,9,10,11,12] : List ℚ).length →
        ∃ r, moving_average ([1,2,3,4,5,6,7,8,9,10,11,12] : List ℚ) = .ok r ∧
          r.length = ([1,2,3,4,5,6,7,8,9,10,11,12] : List ℚ).length -
            ([1,2,3,4,5,6,7,8,9,10,11,12] : List ℚ).length / 10 + 1 ∧
          ∀ i, i ≤ ([1,2,3,4,5,6,7,8,9,10,11,12] : List ℚ).length -
              ([1,2,3,4,5,6,7,8,9,10,11,12] : List ℚ).length / 10 →
            r.getD i 0 = mean_value
              ((([1,2,3,4,5,6,7,8,9,10,11,12] : List ℚ).drop i).take
                (([1,2,3,4,5,6,7,8,9,10,11,12] : List ℚ).length / 10))
              (([1,2,3,4,5,6,7,8,9,10,11,12] : List ℚ).length / 10))) :=
  ⟨by simp, C5_moving_average_spec ([1,2,3,4,5,6,7,8,9,10,11,12] : List ℚ) (by simp)⟩

/-! Claim C8: the identity median filter. -/

/-- Claim C8: the median filter with count_param = 0 (window_size = 1)
returns a sequence element-wise equal to current (it is a pure function of
current in this model: committing its result is a separate GuiOp, so current
itself is not mutated by the call). -/
theorem C8_median_filter_identity (l : List ℚ) (h : l ≠ []) :
    filtered_data l 0 = l := by
  have hp : padded_data l (1 + 2 * 0) = l := by simp [padded_data]
  simp only [filtered_data]
  rw [hp, foldl_append_map, List.nil_append]
  apply List.ext_getElem
  · simp
  · intro i h1 h2
    have hi : i < l.length := by simpa using h1
    rw [List.getElem_map, List.getElem_range]
    have hdrop : l.drop i = l[i] :: l.drop (i + 1) := List.drop_eq_getElem_cons hi
    have ht : (l.drop i).take (1 + 2 * 0) = [l[i]] := by
      rw [hdrop]
      rfl
    rw [ht, List.mergeSort_singleton]
    rfl

/-- Witness for claim C8. -/
theorem C8_witness :
    ([1, 2, 3] : List ℚ) ≠ [] ∧ filtered_data [1, 2, 3] 0 = [1, 2, 3] :=
  ⟨by simp, C8_median_filter_identity [1, 2, 3] (by simp)⟩

/-! Claim C9: restore_spikes. -/

theorem getD_set_self (f : List ℚ) (i : ℕ) (a : ℚ) (h : i < f.length) :
    (f.set i a).getD i 0 = a := by
  rw [List.getD_eq_getElem _ _ (by simpa using h)]
  simp

theorem getD_set_ne (f : List ℚ) (i j : ℕ) (a : ℚ) (hij : i ≠ j) :
    (f.set i a).getD j 0 = f.getD j 0 := by
  by_cases hj : j < f.length
  · rw [List.getD_eq_getElem _ _ (by simpa using hj), List.getD_eq_getElem _ _ hj]
    simp [List.getElem_set, hij]
  · rw [List.getD_eq_default _ _ (by simpa using Nat.le_of_not_lt hj),
      List.getD_eq_default _ _ (Nat.le_of_not_lt hj)]

/-- Claim C9 (amended): for every spike list S whose indices are pairwise
distinct (as detect_spikes always produces) and valid for f, restore_spikes
overwrites f[idx] = value for each pair, so the result has the spike value at
every spike index and the pre-call value of f everywhere else (with the
length unchanged).  With a repeated index only the last write survives, which
refutes the unrestricted claim. -/
theorem C9_restore_spikes_amended :
    ∀ (S : List (ℕ × ℚ)) (f : List ℚ),
      (S.map Prod.fst).Nodup → (∀ p ∈ S, p.1 < f.length) →
      (restore_spikes S f).length = f.length ∧
      (∀ p ∈ S, (restore_spikes S f).getD p.1 0 = p.2) ∧
      (∀ j, j < f.length → (∀ p ∈ S, p.1 ≠ j) →
        (restore_spikes S f).getD j 0 = f.getD j 0) := by
  intro S
  induction S with
  | nil =>
    intro f _ _
    exact ⟨rfl, by simp, by intro j _ _; rfl⟩
  | cons p S ih =>
    intro f hnd hv
    have hstep : restore_spikes (p :: S) f = restore_spikes S (f.set p.1 p.2) :=
      rfl
    have hnd2 : p.1 ∉ S.map Prod.fst ∧ (S.map Prod.fst).Nodup := by
      simpa [List.nodup_cons] using hnd
    have hv2 : ∀ q ∈ S, q.1 < (f.set p.1 p.2).length := by
      intro q hq
      rw [List.length_set]
      exact hv q (List.mem_cons_of_mem p hq)
    obtain ⟨ihl, ihs, ihf⟩ := ih (f.set p.1 p.2) hnd2.2 hv2
    refine ⟨?_, ?_, ?_⟩
    · rw [hstep, ihl, List.length_set]
    · intro q hq
      rcases List.mem_cons.mp hq with heq | hq2
      · subst heq
        have hp1 : q.1 < (f.set q.1 q.2).length := by
          rw [List.length_set]
          exact hv q (List.mem_cons_self q S)
        have hnotin : ∀ r ∈ S, r.1 ≠ q.1 := by
          intro r hr he
          exact hnd2.1 (he ▸ List.mem_map_of_mem Prod.fst hr)
        rw [hstep, ihf q.1 hp1 hnotin]
        exact getD_set_self f q.1 q.2 (hv q (List.mem_cons_self q S))
      · rw [hstep]
        exact ihs q hq2
    · intro j hj hne
      have hj2 : j < (f.set p.1 p.2).length := by simpa using hj
      rw [hstep, ihf j hj2 (fun q hq => hne q (List.mem_cons_of_mem p hq))]
      exact getD_set_ne f p.1 j p.2 (hne p (List.mem_cons_self p S))

/-- Counterexample for claim C9 as frozen: with the duplicate-index spike
list [(0, 1), (0, 2)] on the one-sample sequence [5] the result is [2], so
the entry at spike index 0 differs from the value 1 recorded in the first
pair, although (0, 1) is in the spike list. -/
theorem C9_counterexample :
    restore_spikes [(0, 1), (0, 2)] [(5 : ℚ)] = [2] ∧
    (0, (1 : ℚ)) ∈ ([(0, 1), (0, 2)] : List (ℕ × ℚ)) ∧
    (restore_spikes [(0, 1), (0, 2)] [(5 : ℚ)]).getD 0 0 ≠ 1 := by
  refine ⟨rfl, by simp, ?_⟩
  show (2 : ℚ) ≠ 1
  norm_num

/-- Witness for the amended claim C9. -/
theorem C9_witness :
    ((([(0, (7 : ℚ)), (2, 9)] : List (ℕ × ℚ)).map Prod.fst).Nodup ∧
      (∀ p ∈ ([(0, (7 : ℚ)), (2, 9)] : List (ℕ × ℚ)),
        p.1 < ([1, 2, 3] : List ℚ).length)) ∧
    ((restore_spikes [(0, 7), (2, 9)] [1, 2, 3]).length
        = ([1, 2, 3] : List ℚ).length ∧
      (∀ p ∈ ([(0, (7 : ℚ)), (2, 9)] : List (ℕ × ℚ)),
        (restore_spikes [(0, 7), (2, 9)] [1, 2, 3]).getD p.1 0 = p.2) ∧
      (∀ j, j < ([1, 2, 3] : List ℚ).length →
        (∀ p ∈ ([(0, (7 : ℚ)), (2, 9)] : List (ℕ × ℚ)), p.1 ≠ j) →
        (restore_spikes [(0, 7), (2, 9)] [1, 2, 3]).getD j 0
          = ([1, 2, 3] : List ℚ).getD j 0)) :=
  ⟨⟨by simp, by intro p hp; fin_cases hp <;> norm_num⟩,
    C9_restore_spikes_amended [(0, 7), (2, 9)] [1, 2, 3] (by simp)
      (by intro p hp; fin_cases hp <;> norm_num)⟩

/-! Claim C6: detect_oscillations membership. -/

/-- Claim C6: a window at start offset s is reported as oscillation region
[s, s + window_size) exactly when its detrended local std passes the energy
gate (not below 0.01 * global_std), its detrended sign sequence has more
than 5 zero crossings, and more than 3 consecutive-crossing sub-intervals
simultaneously have gap >= 5 and amp_std < 0.3 * amp_mean, the amplitude
statistics being computed once over all recorded sub-interval peak
amplitudes of that window. -/
theorem C6_oscillation_membership (current : List ℚ) (ratio : ℚ) (s e : ℕ) :
    (s, e) ∈ detect_oscillations current ratio ↔
      (e = s + osc_window_size current.length ratio ∧
       s + osc_window_size current.length ratio ≤ current.length ∧
       osc_energetic current ratio s = true ∧
       5 < (osc_zc current ratio s).length ∧
       3 < osc_count current ratio s) := by
  have hws : 1 ≤ osc_window_size current.length ratio := by
    have := le_max_right (⌊(current.length : ℚ) * ratio⌋).toNat 10
    unfold osc_window_size
    omega
  simp only [detect_oscillations]
  rw [foldl_append_if, List.nil_append, List.mem_filterMap]
  constructor
  · rintro ⟨i, hi, hsome⟩
    rw [List.mem_range] at hi
    by_cases hq : osc_window_qualifies current ratio i
    · rw [if_pos hq] at hsome
      have hpair : i = s ∧ i + osc_window_size current.length ratio = e := by
        have := Option.some.inj hsome
        exact ⟨congrArg Prod.fst this, congrArg Prod.snd this⟩
      obtain ⟨rfl, rfl⟩ := hpair
      have hq2 := hq
      unfold osc_window_qualifies at hq2
      simp only [Bool.and_eq_true, decide_eq_true_eq] at hq2
      exact ⟨rfl, by omega, hq2.1, hq2.2.1, hq2.2.2⟩
    · rw [if_neg hq] at hsome
      exact absurd hsome (by simp)
  · rintro ⟨rfl, hle, h1, h2, h3⟩
    refine ⟨s, by rw [List.mem_range]; omega, ?_⟩
    have hq : osc_window_qualifies current ratio s = true := by
      unfold osc_window_qualifies
      simp only [Bool.and_eq_true, decide_eq_true_eq]
      exact ⟨h1, h2, h3⟩
    rw [if_pos hq]

/-! Claim C4: detect_stalls in the global_std > 0 branch. -/

theorem stall_fold_runs (n ws : ℕ) (hws : 10 ≤ ws) :
    ∀ (bs : List Bool) (j L : ℕ) (acc : List (ℕ × ℕ)) (st : Option ℕ)
      (s₀ : ℕ), (∀ s, st = some s → s < j) → L = j + bs.length →
      stall_post n ((List.enumFrom j bs).foldl (stall_step n ws)
          (st.isSome, st.getD s₀, acc))
        = acc ++ (runs_aux bs j st).filterMap (fun r =>
            if r.2 < L then some (r.1, min (r.2 + ws - 1) (n - 1))
            else if 10 ≤ n - 1 - r.1 then some (r.1, n - 1) else none) := by
  intro bs
  induction bs with
  | nil =>
    intro j L acc st s₀ hst hL
    cases st with
    | none => simp [runs_aux, stall_post]
    | some s =>
      have hjL : ¬ (j < L) := by simp at hL; omega
      by_cases h10 : 10 ≤ n - 1 - s <;>
        simp [runs_aux, stall_post, h10, hjL]
  | cons b bs ih =>
    intro j L acc st s₀ hst hL
    rw [List.enumFrom_cons, List.foldl_cons]
    cases st with
    | none =>
      cases b with
      | true =>
        have hstep : stall_step n ws ((none : Option ℕ).isSome,
            (none : Option ℕ).getD s₀, acc) (j, true) = (true, j, acc) := by
          simp [stall_step]
        rw [hstep]
        have hrec := ih (j + 1) L acc (some j) s₀
          (by intro s hs; cases hs; omega) (by simp at hL ⊢; omega)
        simpa [runs_aux] using hrec
      | false =>
        have hstep : stall_step n ws ((none : Option ℕ).isSome,
            (none : Option ℕ).getD s₀, acc) (j, false)
              = ((none : Option ℕ).isSome, (none : Option ℕ).getD s₀, acc) := by
          simp [stall_step]
        rw [hstep]
        have hrec := ih (j + 1) L acc none s₀
          (by intro s hs; cases hs) (by simp at hL ⊢; omega)
        simpa [runs_aux] using hrec
    | some s =>
      have hs : s < j := hst s rfl
      cases b with
      | true =>
        have hstep : stall_step n ws ((some s).isSome, (some s).getD s₀, acc)
            (j, true) = ((some s).isSome, (some s).getD s₀, acc) := by
          simp [stall_step]
        rw [hstep]
        have hrec := ih (j + 1) L acc (some s) s₀
          (by intro t ht; cases ht; omega) (by simp at hL ⊢; omega)
        simpa [runs_aux] using hrec
      | false =>
        have hcond : 10 ≤ j + ws - 1 - s := by omega
        have hstep : stall_step n ws ((some s).isSome, (some s).getD s₀, acc)
            (j, false) = ((none : Option ℕ).isSome, (none : Option ℕ).getD s,
              acc ++ [(s, min (j + ws - 1) (n - 1))]) := by
          simp [stall_step, hcond]
        rw [hstep]
        have hrec := ih (j + 1) L (acc ++ [(s, min (j + ws - 1) (n - 1))])
          none s (by intro t ht; cases ht) (by simp at hL ⊢; omega)
        rw [hrec]
        have hruns : runs_aux (false :: bs) j (some s)
            = (s, j) :: runs_aux bs (j + 1) none := by simp [runs_aux]
        rw [hruns, List.filterMap_cons]
        have hjL : j < L := by simp at hL; omega
        simp only [hjL, if_pos]
        rw [List.append_assoc]
        rfl

theorem detect_stalls_runs (current : List ℚ)
    (h : variance current current.length ≠ 0) :
    detect_stalls current = .ok (stalls_spec current.length
      (stall_window_size current.length) (stall_flags current)) := by
  simp only [detect_stalls]
  rw [if_neg h]
  congr 1
  unfold stall_fold stalls_spec true_runs
  have hws : 10 ≤ stall_window_size current.length := le_max_right _ _
  have hrec := stall_fold_runs current.length (stall_window_size current.length)
    hws (stall_flags current) 0 (stall_flags current).length [] none 0
    (by intro s hs; cases hs) (by simp)
  simpa [List.enum] using hrec

/-- Claim C4 (amended): with global_std > 0, every maximal run [s, e) of
in-stall offsets that is closed mid-scan is reported regardless of its
length, as (s, min(e + window_size - 1, count - 1)) — the recorded end is the
first non-stall offset plus window_size - 1, and the length test compares
that end against the run start, which always passes because
window_size >= 10; a run still open at the end of the scan is reported as
(s, count - 1) exactly when count - 1 - s >= 10. -/
theorem C4_stalls_amended (current : List ℚ)
    (h : variance current current.length ≠ 0) :
    detect_stalls current = .ok (stalls_spec current.length
      (stall_window_size current.length) (stall_flags current)) :=
  detect_stalls_runs current h

theorem stallProbe_mean : mean_value stallProbe 20 = 25 := by
  norm_num [mean_value, stallProbe]

theorem stallProbe_var : variance stallProbe 20 = 1875 := by
  unfold variance
  simp only [stallProbe_mean]
  norm_num [stallProbe]

theorem stallProbe_var_ne : variance stallProbe stallProbe.length ≠ 0 := by
  have hlen : stallProbe.length = 20 := rfl
  rw [hlen, stallProbe_var]
  norm_num

theorem stallProbe_flags : stall_flags stallProbe
    = [true, false, false, false, false, false, false, false, false, false,
        false] := by
  have hlen : stallProbe.length = 20 := rfl
  simp only [stall_flags, hlen]
  have hws : stall_window_size 20 = 10 := rfl
  simp only [hws, stallProbe_var]
  have hr : List.range (20 + 1 - 10) = [0, 1, 2, 3, 4, 5, 6, 7, 8, 9, 10] :=
    rfl
  rw [hr]
  norm_num [stallProbe, variance, mean_value]

/-- Counterexample for claim C4 as frozen: on stallProbe the unique maximal
in-stall run is the single offset 0 (length 1 < 10), yet detect_stalls
reports the interval (0, 10); under the claim's rule nothing would be
reported, and the interval end would be run_start + window_size - 1 = 9
rather than 10. -/
theorem C4_counterexample :
    detect_stalls stallProbe = .ok [(0, 10)] ∧
    true_runs (stall_flags stallProbe) = [(0, 1)] ∧
    claim_stalls_spec stallProbe.length (stall_window_size stallProbe.length)
      (stall_flags stallProbe) = [] ∧
    detect_stalls stallProbe
      ≠ .ok (claim_stalls_spec stallProbe.length
          (stall_window_size stallProbe.length) (stall_flags stallProbe)) := by
  have h1 := detect_stalls_runs stallProbe stallProbe_var_ne
  have hform : stalls_spec stallProbe.length (stall_window_size
      stallProbe.length) (stall_flags stallProbe) = [(0, 10)] := by
    rw [stallProbe_flags]
    decide
  have hclaim : claim_stalls_spec stallProbe.length (stall_window_size
      stallProbe.length) (stall_flags stallProbe) = [] := by
    rw [stallProbe_flags]
    decide
  refine ⟨by rw [h1, hform], by rw [stallProbe_flags]; decide, hclaim, ?_⟩
  rw [h1, hform, hclaim]
  simp

/-- Witness for the amended claim C4 at the concrete series stallProbe. -/
theorem C4_witness :
    variance stallProbe stallProbe.length ≠ 0 ∧
    detect_stalls stallProbe = .ok (stalls_spec stallProbe.length
      (stall_window_size stallProbe.length) (stall_flags stallProbe)) :=
  ⟨stallProbe_var_ne, C4_stalls_amended stallProbe stallProbe_var_ne⟩

/-! Claim C1: helper lemmas about windows, counts and the 5/20 statistics. -/

theorem getD_replicate (k t : ℕ) (a : ℚ) (h : t < k) :
    (List.replicate k a).getD t 0 = a := by
  rw [List.getD_eq_getElem _ _ (by simpa using h)]
  simp

theorem getLastD_eq_getD (l : List ℚ) :
    ∀ d : ℚ, l.getLastD d = l.getD (l.length - 1) d := by
  induction l with
  | nil => intro d; rfl
  | cons a t ih =>
    intro d
    rw [List.getLastD_cons]
    cases t with
    | nil => rfl
    | cons b t2 =>
      rw [ih a]
      have h1 : (b :: t2).length - 1 < (b :: t2).length := by simp
      have h2 : (a :: b :: t2).length - 1 = ((b :: t2).length - 1) + 1 := by
        simp
      rw [h2, List.getD_cons_succ, List.getD_eq_getElem _ _ h1,
        List.getD_eq_getElem _ _ h1]

theorem countP_range_point (i q : ℕ) :
    ∀ w, (List.range w).countP (fun t => decide (i + t = q))
      = if i ≤ q ∧ q < i + w then 1 else 0 := by
  intro w
  induction w with
  | zero =>
    simp only [List.range_zero, List.countP_nil]
    split_ifs with h <;> omega
  | succ w ih =>
    rw [List.range_succ, List.countP_append, ih]
    simp only [List.countP_cons, List.countP_nil, decide_eq_true_eq]
    split_ifs <;> omega

theorem countP_range_le (i d : ℕ) :
    ∀ w, (List.range w).countP (fun t => decide (i + t ≤ d))
      = min (d + 1 - i) w := by
  intro w
  induction w with
  | zero => simp
  | succ w ih =>
    rw [List.range_succ, List.countP_append, ih]
    simp only [List.countP_cons, List.countP_nil, decide_eq_true_eq]
    split_ifs <;> omega

theorem countP_range_ge (i a : ℕ) :
    ∀ w, (List.range w).countP (fun t => decide (a ≤ i + t))
      = w - min (a - i) w := by
  intro w
  induction w with
  | zero => simp
  | succ w ih =>
    rw [List.range_succ, List.countP_append, ih]
    simp only [List.countP_cons, List.countP_nil, decide_eq_true_eq]
    split_ifs <;> omega

theorem drop_take_eq_map_getD (l : List ℚ) (i w : ℕ) (h : i + w ≤ l.length) :
    (l.drop i).take w = (List.range w).map (fun t => l.getD (i + t) 0) := by
  apply List.ext_getElem
  · simp
    omega
  · intro t h1 h2
    have ht : t < w := by simpa using h2
    have hit : i + t < l.length := by omega
    rw [List.getElem_take, List.getElem_drop, List.getElem_map,
      List.getElem_range, List.getD_eq_getElem _ _ hit]

theorem length_remove_center (win : List ℚ) (c : ℕ) (hc : c < win.length) :
    (win.take c ++ win.drop (c + 1)).length = win.length - 1 := by
  simp only [List.length_append, List.length_take, List.length_drop]
  omega

theorem count_remove_center (win : List ℚ) (c : ℕ) (hc : c < win.length)
    (v : ℚ) :
    (win.take c ++ win.drop (c + 1)).count v
      + (if win.getD c 0 = v then 1 else 0) = win.count v := by
  conv_rhs => rw [← List.take_append_drop c win]
  rw [List.count_append, List.count_append,
    List.drop_eq_getElem_cons hc, List.count_cons,
    List.getD_eq_getElem _ _ hc]
  simp only [beq_iff_eq]
  omega

theorem mem_remove_center (win : List ℚ) (c : ℕ) {x : ℚ}
    (h : x ∈ win.take c ++ win.drop (c + 1)) : x ∈ win := by
  rcases List.mem_append.mp h with h2 | h2
  · exact List.mem_of_mem_take h2
  · exact List.mem_of_mem_drop h2

theorem length_mkOutlier (n o : ℕ) : (mkOutlier n o).length = n := by
  simp [mkOutlier]

theorem getD_mkOutlier (n o j : ℕ) (hj : j < n) :
    (mkOutlier n o).getD j 0 = if j = o then 20 else 5 := by
  unfold mkOutlier
  rw [List.getD_eq_getElem _ _ (by simpa using hj)]
  rw [List.getElem_set]
  split_ifs with h1 h2 h2
  · rfl
  · exact absurd h1.symm h2
  · exact absurd h2.symm h1
  · simp

theorem headD_mkOutlier (n o : ℕ) (hn : 0 < n) :
    (mkOutlier n o).headD 0 = if o = 0 then 20 else 5 := by
  have hne : mkOutlier n o ≠ [] := by
    intro h
    have := congrArg List.length h
    rw [length_mkOutlier] at this
    simp at this
    omega
  have h0 : (mkOutlier n o).headD 0 = (mkOutlier n o).getD 0 0 := by
    cases h : mkOutlier n o with
    | nil => exact absurd h hne
    | cons a t => rfl
  rw [h0, getD_mkOutlier n o 0 hn]
  split_ifs with h1 h2 h2
  · rfl
  · omega
  · omega
  · rfl

theorem getLastD_mkOutlier (n o : ℕ) (hn : 0 < n) :
    (mkOutlier n o).getLastD 0 = if o = n - 1 then 20 else 5 := by
  rw [getLastD_eq_getD, length_mkOutlier,
    getD_mkOutlier n o (n - 1) (by omega)]
  split_ifs with h1 h2 h2
  · rfl
  · omega
  · omega
  · rfl

theorem mem_mkOutlier (n o : ℕ) {v : ℚ} (h : v ∈ mkOutlier n o) :
    v = 5 ∨ v = 20 := by
  rcases List.mem_or_eq_of_mem_set h with h2 | h2
  · left
    exact List.eq_of_mem_replicate h2
  · right
    exact h2

theorem length_padded_data (data : List ℚ) (ws : ℕ) :
    (padded_data data ws).length = data.length + 2 * (ws / 2) := by
  simp only [padded_data, List.length_append, List.length_replicate]
  omega

theorem padded_getD_outlier (n o ws j : ℕ) (hn : 2 ≤ n) (ho : o < n)
    (hj : j < n + 2 * (ws / 2)) :
    (padded_data (mkOutlier n o) ws).getD j 0 =
      if (j < ws / 2 ∧ o = 0) ∨ j = ws / 2 + o ∨ (ws / 2 + n ≤ j ∧ o = n - 1)
      then 20 else 5 := by
  have hlen : (mkOutlier n o).length = n := length_mkOutlier n o
  unfold padded_data
  rcases Nat.lt_or_ge j (ws / 2) with h1 | h1
  · rw [List.getD_append _ _ _ _ (by simp [hlen]; omega),
      List.getD_append _ _ _ _ (by simp; omega),
      getD_replicate _ _ _ h1, headD_mkOutlier n o (by omega)]
    have hiff : ((j < ws / 2 ∧ o = 0) ∨ j = ws / 2 + o ∨
        (ws / 2 + n ≤ j ∧ o = n - 1)) ↔ o = 0 := by
      constructor
      · intro h
        rcases h with h | h | h <;> omega
      · intro h
        left
        exact ⟨h1, h⟩
    rw [if_congr hiff rfl rfl]
  · rcases Nat.lt_or_ge j (ws / 2 + n) with h2 | h2
    · rw [List.getD_append _ _ _ _ (by simp [hlen]; omega),
        List.getD_append_right _ _ _ _ (by simp; omega)]
      have hidx : j - (List.replicate (ws / 2)
          ((mkOutlier n o).headD 0)).length = j - ws / 2 := by simp
      rw [hidx, getD_mkOutlier n o (j - ws / 2) (by omega)]
      have hiff : ((j < ws / 2 ∧ o = 0) ∨ j = ws / 2 + o ∨
          (ws / 2 + n ≤ j ∧ o = n - 1)) ↔ j - ws / 2 = o := by
        constructor
        · intro h
          rcases h with h | h | h <;> omega
        · intro h
          right
          left
          omega
      rw [if_congr hiff.symm rfl rfl]
    · rw [List.getD_append_right _ _ _ _ (by simp [hlen]; omega)]
      have hidx : j - (List.replicate (ws / 2) ((mkOutlier n o).headD 0)
          ++ mkOutlier n o).length = j - (ws / 2 + n) := by
        simp [hlen]
      rw [hidx, getD_replicate _ _ _ (by omega),
        getLastD_mkOutlier n o (by omega)]
      have hiff : ((j < ws / 2 ∧ o = 0) ∨ j = ws / 2 + o ∨
          (ws / 2 + n ≤ j ∧ o = n - 1)) ↔ o = n - 1 := by
        constructor
        · intro h
          rcases h with h | h | h <;> omega
        · intro h
          right
          right
          exact ⟨h2, h⟩
      rw [if_congr hiff rfl rfl]

theorem sum_52 (l : List ℚ) (h : ∀ v ∈ l, v = 5 ∨ v = 20) :
    l.sum = 5 * (l.length : ℚ) + 15 * (l.count 20 : ℚ) := by
  induction l with
  | nil => simp
  | cons a t ih =>
    have ht := ih (fun v hv => h v (List.mem_cons_of_mem a hv))
    have ha := h a (List.mem_cons_self a t)
    rcases ha with ha | ha <;> subst ha
    · have hb : List.count (20 : ℚ) (5 :: t) = List.count 20 t := by
        rw [List.count_cons]
        norm_num
      rw [List.sum_cons, ht, hb, List.length_cons]
      push_cast
      ring
    · have hb : List.count (20 : ℚ) (20 :: t) = List.count 20 t + 1 := by
        rw [List.count_cons]
        norm_num
      rw [List.sum_cons, ht, hb, List.length_cons]
      push_cast
      ring

theorem sumsq_52 (l : List ℚ) (h : ∀ v ∈ l, v = 5 ∨ v = 20) :
    (l.map (fun v => v ^ 2)).sum
      = 25 * (l.length : ℚ) + 375 * (l.count 20 : ℚ) := by
  induction l with
  | nil => simp
  | cons a t ih =>
    have ht := ih (fun v hv => h v (List.mem_cons_of_mem a hv))
    have ha := h a (List.mem_cons_self a t)
    rcases ha with ha | ha <;> subst ha
    · have hb : List.count (20 : ℚ) (5 :: t) = List.count 20 t := by
        rw [List.count_cons]
        norm_num
      rw [List.map_cons, List.sum_cons, ht, hb, List.length_cons]
      push_cast
      ring
    · have hb : List.count (20 : ℚ) (20 :: t) = List.count 20 t + 1 := by
        rw [List.count_cons]
        norm_num
      rw [List.map_cons, List.sum_cons, ht, hb, List.length_cons]
      push_cast
      ring

theorem sum_sq_sub (c : ℚ) (l : List ℚ) :
    (l.map (fun v => (v - c) ^ 2)).sum
      = (l.map (fun v => v ^ 2)).sum - 2 * c * l.sum + l.length * c ^ 2 := by
  induction l with
  | nil => simp
  | cons a t ih =>
    rw [List.map_cons, List.sum_cons, List.map_cons, List.sum_cons,
      List.sum_cons, ih, List.length_cons]
    push_cast
    ring

/-- The arithmetic heart of claim C1: on a leave-one-out window whose
entries are all 5 or 20, with k entries equal to 20 out of m, the variance
is 225 k (m - k) / m^2 and the center deviation is 15 k / m (center 5) or
15 (m - k) / m (center 20); the spike test then reduces to 17 k > 16 m,
resp. m > 17 k, and the stated bounds refute it. -/
theorem spike_arith (l : List ℚ) (xv : ℚ)
    (h52 : ∀ v ∈ l, v = 5 ∨ v = 20) (hm : 2 ≤ l.length)
    (hx : (xv = 5 ∧ 17 * l.count 20 ≤ 16 * l.length) ∨
          (xv = 20 ∧ (l.count 20 = 0 ∨ l.length ≤ 17 * l.count 20))) :
    ¬ (0 < variance l l.length ∧
       16 * variance l l.length < (xv - mean_value l l.length) ^ 2) := by
  rintro ⟨h1, h2⟩
  set m := l.length with hm_def
  set k := l.count 20 with hk_def
  have hkm : k ≤ m := List.count_le_length 20 l
  set M : ℚ := (m : ℚ) with hM_def
  set K : ℚ := (k : ℚ) with hK_def
  have hM : 0 < M := by
    rw [hM_def]
    exact_mod_cast Nat.lt_of_lt_of_le (by norm_num) hm
  have hK0 : 0 ≤ K := by
    rw [hK_def]
    positivity
  have hKM : K ≤ M := by
    rw [hK_def, hM_def]
    exact_mod_cast hkm
  have hsum : l.sum = 5 * M + 15 * K := sum_52 l h52
  have hsq : (l.map (fun v => v ^ 2)).sum = 25 * M + 375 * K := sumsq_52 l h52
  have hmean : mean_value l m = (5 * M + 15 * K) / M := by
    unfold mean_value
    rw [hsum]
  have hvar : variance l m * M ^ 2 = 225 * K * (M - K) := by
    unfold variance
    rw [sum_sq_sub, hsum, hsq, hmean]
    field_simp
    ring
  have hvarpos : 0 < 225 * K * (M - K) := by
    rw [← hvar]
    exact mul_pos h1 (pow_pos hM 2)
  have hKpos : 0 < K := by nlinarith
  have hKlt : K < M := by nlinarith
  have hdm : (xv - mean_value l m) * M = xv * M - (5 * M + 15 * K) := by
    rw [hmean]
    field_simp
  have h2m : 16 * (225 * K * (M - K)) < (xv * M - (5 * M + 15 * K)) ^ 2 := by
    have h3 := mul_lt_mul_of_pos_right h2 (pow_pos hM 2)
    calc 16 * (225 * K * (M - K)) = 16 * (variance l m * M ^ 2) := by
            rw [hvar]
      _ = 16 * variance l m * M ^ 2 := by ring
      _ < (xv - mean_value l m) ^ 2 * M ^ 2 := h3
      _ = ((xv - mean_value l m) * M) ^ 2 := by ring
      _ = (xv * M - (5 * M + 15 * K)) ^ 2 := by rw [hdm]
  rcases hx with ⟨hxv, hb⟩ | ⟨hxv, hb⟩
  · subst hxv
    have hb2 : 17 * K ≤ 16 * M := by
      rw [hK_def, hM_def]
      exact_mod_cast hb
    have h4 : 16 * (225 * K * (M - K)) < 225 * K ^ 2 := by
      calc 16 * (225 * K * (M - K)) < (5 * M - (5 * M + 15 * K)) ^ 2 := h2m
        _ = 225 * K ^ 2 := by ring
    nlinarith
  · subst hxv
    rcases hb with hb | hb
    · have : K = 0 := by
        rw [hK_def, hb]
        norm_num
      nlinarith
    · have hb2 : M ≤ 17 * K := by
        rw [hK_def, hM_def]
        exact_mod_cast hb
      have h4 : 16 * (225 * K * (M - K)) < 225 * (M - K) ^ 2 := by
        calc 16 * (225 * K * (M - K)) < (20 * M - (5 * M + 15 * K)) ^ 2 := h2m
          _ = 225 * (M - K) ^ 2 := by ring
      nlinarith

theorem mem_padded_outlier (n o ws : ℕ) (hn : 0 < n) (ho : o < n) {v : ℚ}
    (h : v ∈ padded_data (mkOutlier n o) ws) : v = 5 ∨ v = 20 := by
  unfold padded_data at h
  rcases List.mem_append.mp h with h2 | h2
  · rcases List.mem_append.mp h2 with h3 | h3
    · have hv := List.eq_of_mem_replicate h3
      rw [headD_mkOutlier n o hn] at hv
      split_ifs at hv
      · right
        exact hv
      · left
        exact hv
    · exact mem_mkOutlier n o h3
  · have hv := List.eq_of_mem_replicate h2
    rw [getLastD_mkOutlier n o hn] at hv
    split_ifs at hv
    · right
      exact hv
    · left
      exact hv

/-- Complete analysis of the leave-one-out window of detect_spikes on the
one-outlier family: its entries are all 5 or 20, it has window_size - 1
entries, and the count of 20-entries is small enough (center 5) or large
enough (center 20) that the spike test of spike_arith can never fire. -/
theorem spike_window_analysis (n o i : ℕ) (hn : 20 ≤ n) (ho : o < n)
    (hi : i < n) :
    let x := mkOutlier n o
    let ws := spike_window_size n
    let win := ((padded_data x ws).drop i).take ws
    let wwc := win.take (ws / 2) ++ win.drop (ws / 2 + 1)
    (∀ v ∈ wwc, v = 5 ∨ v = 20) ∧ wwc.length = ws - 1 ∧
    ((x.getD i 0 = 5 ∧ 17 * wwc.count 20 ≤ 16 * wwc.length) ∨
     (x.getD i 0 = 20 ∧ (wwc.count 20 = 0 ∨ wwc.length ≤ 17 * wwc.count 20))) := by
  intro x ws win wwc
  have hws10 : 10 ≤ ws := le_max_right _ _
  have hpad : ws / 2 * 2 ≤ ws ∧ ws ≤ ws / 2 * 2 + 1 ∧ 5 ≤ ws / 2 := by omega
  set pad := ws / 2 with hpad_def
  have hxlen : x.length = n := length_mkOutlier n o
  have hplen : (padded_data x ws).length = n + 2 * pad := by
    rw [length_padded_data, hxlen, hpad_def]
  have hiw : i + ws ≤ (padded_data x ws).length := by
    rw [hplen]
    omega
  have hwin : win = (List.range ws).map
      (fun t => (padded_data x ws).getD (i + t) 0) :=
    drop_take_eq_map_getD _ i ws hiw
  have hwinlen : win.length = ws := by
    rw [hwin]
    simp
  have hpadlt : pad < win.length := by omega
  have hwwclen : wwc.length = ws - 1 := by
    rw [length_remove_center win pad hpadlt, hwinlen]
  -- entries are all 5 or 20
  have h52 : ∀ v ∈ wwc, v = 5 ∨ v = 20 := by
    intro v hv
    have hv2 : v ∈ win := mem_remove_center win pad hv
    have hv3 : v ∈ padded_data x ws :=
      List.mem_of_mem_drop (List.mem_of_mem_take hv2)
    exact mem_padded_outlier n o ws (by omega) ho hv3
  refine ⟨h52, hwwclen, ?_⟩
  -- the center of the window is the tested sample itself
  have hxv : x.getD i 0 = if i = o then 20 else 5 := getD_mkOutlier n o i hi
  have hcenter : win.getD pad 0 = x.getD i 0 := by
    rw [hwin, List.getD_eq_getElem _ _ (by simp; omega),
      List.getElem_map, List.getElem_range]
    rw [padded_getD_outlier n o ws (i + pad) (by omega) ho (by omega), hxv]
    have hiff : ((i + pad < ws / 2 ∧ o = 0) ∨ i + pad = ws / 2 + o ∨
        (ws / 2 + n ≤ i + pad ∧ o = n - 1)) ↔ i = o := by
      rw [← hpad_def]
      constructor
      · intro h
        rcases h with h | h | h <;> omega
      · intro h
        right
        left
        omega
    rw [if_congr hiff rfl rfl]
  -- the 20-count of the full window, as a countP over offsets
  have hcount_add : wwc.count 20 + (if win.getD pad 0 = 20 then 1 else 0)
      = win.count 20 := count_remove_center win pad hpadlt 20
  have hwincount : win.count 20 = (List.range ws).countP (fun t =>
      decide ((i + t < ws / 2 ∧ o = 0) ∨ i + t = ws / 2 + o ∨
        (ws / 2 + n ≤ i + t ∧ o = n - 1))) := by
    rw [hwin, List.count_eq_countP, List.countP_map]
    apply List.countP_congr
    intro t ht
    rw [List.mem_range] at ht
    have hval := padded_getD_outlier n o ws (i + t) (by omega) ho (by omega)
    simp only [Function.comp_apply, hval, ← hpad_def]
    by_cases hc : ((i + t < pad ∧ o = 0) ∨ i + t = pad + o ∨
        (pad + n ≤ i + t ∧ o = n - 1))
    · rw [if_pos hc]
      simp [hc]
    · rw [if_neg hc]
      constructor
      · intro hfive
        exact absurd (beq_iff_eq.mp hfive) (by norm_num)
      · intro hfalse
        rw [decide_eq_true_eq] at hfalse
        exact absurd hfalse hc
  by_cases ho0 : o = 0
  · -- outlier at the left edge: the left padding replicates the 20
    have hcond : ∀ t ∈ List.range ws,
        (decide ((i + t < ws / 2 ∧ o = 0) ∨ i + t = ws / 2 + o ∨
          (ws / 2 + n ≤ i + t ∧ o = n - 1)) = true)
          ↔ (decide (i + t ≤ pad) = true) := by
      intro t ht
      rw [List.mem_range] at ht
      simp only [decide_eq_true_eq, ← hpad_def]
      omega
    have hcnt : win.count 20 = min (pad + 1 - i) ws := by
      rw [hwincount, List.countP_congr hcond, countP_range_le]
    by_cases hio : i = o
    · -- tested sample is the outlier; k = pad
      right
      have hc20 : win.getD pad 0 = 20 := by
        rw [hcenter, hxv, if_pos hio]
      rw [hc20, if_pos (rfl : (20 : ℚ) = 20)] at hcount_add
      refine ⟨by rw [hxv, if_pos hio], Or.inr ?_⟩
      have hk : wwc.count 20 = pad := by omega
      rw [hk, hwwclen]
      omega
    · -- neighbouring sample: k ≤ pad
      left
      have hc5 : win.getD pad 0 = 5 := by
        rw [hcenter, hxv, if_neg hio]
      rw [hc5, if_neg (by norm_num : ¬ (5 : ℚ) = 20)] at hcount_add
      refine ⟨by rw [hxv, if_neg hio], ?_⟩
      have hk : wwc.count 20 ≤ pad := by omega
      rw [hwwclen]
      omega
  · by_cases hoN : o = n - 1
    · -- outlier at the right edge: the right padding replicates the 20
      have hcond : ∀ t ∈ List.range ws,
          (decide ((i + t < ws / 2 ∧ o = 0) ∨ i + t = ws / 2 + o ∨
            (ws / 2 + n ≤ i + t ∧ o = n - 1)) = true)
            ↔ (decide (pad + n - 1 ≤ i + t) = true) := by
        intro t ht
        rw [List.mem_range] at ht
        simp only [decide_eq_true_eq, ← hpad_def]
        omega
      have hcnt : win.count 20 = ws - min (pad + n - 1 - i) ws := by
        rw [hwincount, List.countP_congr hcond, countP_range_ge]
      by_cases hio : i = o
      · right
        have hc20 : win.getD pad 0 = 20 := by
          rw [hcenter, hxv, if_pos hio]
        rw [hc20, if_pos (rfl : (20 : ℚ) = 20)] at hcount_add
        refine ⟨by rw [hxv, if_pos hio], Or.inr ?_⟩
        have hk : wwc.count 20 = ws - pad - 1 := by omega
        rw [hk, hwwclen]
        omega
      · left
        have hc5 : win.getD pad 0 = 5 := by
          rw [hcenter, hxv, if_neg hio]
        rw [hc5, if_neg (by norm_num : ¬ (5 : ℚ) = 20)] at hcount_add
        refine ⟨by rw [hxv, if_neg hio], ?_⟩
        have hk : wwc.count 20 ≤ ws - pad - 1 := by omega
        rw [hwwclen]
        omega
    · -- interior outlier: at most one 20 in the window
      have hcond : ∀ t ∈ List.range ws,
          (decide ((i + t < ws / 2 ∧ o = 0) ∨ i + t = ws / 2 + o ∨
            (ws / 2 + n ≤ i + t ∧ o = n - 1)) = true)
            ↔ (decide (i + t = pad + o) = true) := by
        intro t ht
        rw [List.mem_range] at ht
        simp only [decide_eq_true_eq, ← hpad_def]
        omega
      have hcnt : win.count 20
          = if i ≤ pad + o ∧ pad + o < i + ws then 1 else 0 := by
        rw [hwincount, List.countP_congr hcond, countP_range_point]
      have hcnt1 : win.count 20 ≤ 1 := by
        rw [hcnt]
        split_ifs <;> omega
      by_cases hio : i = o
      · right
        have hc20 : win.getD pad 0 = 20 := by
          rw [hcenter, hxv, if_pos hio]
        rw [hc20, if_pos (rfl : (20 : ℚ) = 20)] at hcount_add
        refine ⟨by rw [hxv, if_pos hio], Or.inl ?_⟩
        have hin : i ≤ pad + o ∧ pad + o < i + ws := by omega
        rw [hcnt, if_pos hin] at hcount_add
        omega
      · left
        have hc5 : win.getD pad 0 = 5 := by
          rw [hcenter, hxv, if_neg hio]
        rw [hc5, if_neg (by norm_num : ¬ (5 : ℚ) = 20)] at hcount_add
        refine ⟨by rw [hxv, if_neg hio], ?_⟩
        rw [hwwclen]
        omega

theorem spike_cond_outlier_false (n o i : ℕ) (hn : 20 ≤ n) (ho : o < n)
    (hi : i < n) : spike_cond (mkOutlier n o) i = false := by
  have h := spike_window_analysis n o i hn ho hi
  simp only at h
  rw [Bool.eq_false_iff]
  intro hcond
  simp only [spike_cond, length_mkOutlier, Bool.and_eq_true,
    decide_eq_true_eq] at hcond
  have hws10 : 10 ≤ spike_window_size n := le_max_right _ _
  have hm : 2 ≤ spike_window_size n - 1 := by omega
  exact spike_arith _ _ h.1 (by rw [h.2.1]; exact hm) h.2.2 hcond

theorem detect_spikes_outlier_nil (n o : ℕ) (hn : 20 ≤ n) (ho : o < n) :
    detect_spikes (mkOutlier n o) = [] := by
  unfold detect_spikes
  rw [foldl_append_if, List.nil_append, List.filterMap_eq_nil_iff]
  intro a ha
  rw [List.mem_range, length_mkOutlier] at ha
  rw [spike_cond_outlier_false n o a hn ho ha]
  rfl

/-- Claim C1 (amended): on every series of n >= 20 samples equal to 5.0
except a single sample 20.0, detect_spikes reports no spike at all — the
leave-one-out window around the outlier is perfectly flat (local_std == 0)
for an interior outlier, or dominated by edge-padding copies of the outlier
value at the edges, and no neighbouring sample deviates from its local mean
by more than 4 local standard deviations; in particular the pair
(outlier_index, 20.0) is never reported. -/
theorem C1_outlier_no_spikes (n o : ℕ) (hn : 20 ≤ n) (ho : o < n) :
    detect_spikes (mkOutlier n o) = [] :=
  detect_spikes_outlier_nil n o hn ho

/-- Counterexample for claim C1 as frozen: with n = 20 samples and the
outlier at index 10, detect_spikes returns the empty list rather than the
single spike (10, 20.0) the claim requires. -/
theorem C1_counterexample :
    detect_spikes (mkOutlier 20 10) = [] ∧
    detect_spikes (mkOutlier 20 10) ≠ [(10, (20 : ℚ))] := by
  have h := detect_spikes_outlier_nil 20 10 (by norm_num) (by norm_num)
  refine ⟨h, ?_⟩
  rw [h]
  simp

/-- Witness for the amended claim C1 at n = 20, outlier index 5. -/
theorem C1_witness :
    20 ≤ 20 ∧ 5 < 20 ∧ detect_spikes (mkOutlier 20 5) = [] :=
  ⟨by norm_num, by norm_num,
    C1_outlier_no_spikes 20 5 (by norm_num) (by norm_num)⟩

end SignalCore
